import Mathlib

/-!
Verification of the armv8_smart_speaker core against its specification.

The development shallowly embeds the Python sources:
  * `src/mic_client.py` (`mic_stream_loop`, lines 72-128): the VAD speech
    segmenter, embedded as the step function `segStep` over `SegState`.
  * `src/agent.py` (`handle`, lines 507-570, `split_audio_data`, lines
    504-505): the per-connection message handler, the admission lock and
    the outbound audio framing.
  * `src/agent.py` (`get_cache_key` / `get_cached_response` /
    `cache_response`, lines 132-144): the bounded LLM response cache over
    a Python dict (insertion ordered, first-entry eviction).
  * `src/mqtt_tools.py` (`wait_for_response`, lines 62-74, `tool_get_time`,
    lines 78-108, `on_message`, lines 45-60): the MQTT correlation table.
  * `src/agent.py` (`tools_node`, lines 393-434, `tool_results_processor`,
    lines 436-452): concurrent tool fan-out and result assembly.

Byte strings are modelled as `List Nat`; external effects (the VAD
classifier, the LLM, the MQTT broker, the hash function) are parameters
of the embedded functions.
-/

/-! ### Speech segmenter (src/mic_client.py lines 72-128) -/

/-- SPEECH_START_THRESHOLD = 3 (mic_client.py line 22). -/
def SPEECH_START_THRESHOLD : Nat := 3

/-- SILENCE_THRESHOLD_FRAMES = int(1000 / 30) = 33 (mic_client.py line 21). -/
def SILENCE_THRESHOLD_FRAMES : Nat := 1000 / 30

/-- Mutable locals of mic_stream_loop: in_speech, speech_frames,
silence_frames, audio_buffer. Frame payloads have an abstract type. -/
structure SegState (α : Type) where
  in_speech : Bool
  speech_frames : Nat
  silence_frames : Nat
  audio_buffer : List α
deriving DecidableEq, Repr

/-- Initial segmenter state (mic_client.py lines 74-77). -/
def segInit (α : Type) : SegState α := ⟨false, 0, 0, []⟩

/-- One iteration of the mic_stream_loop body (mic_client.py lines 96-127)
on a frame whose VAD classification is isSpeech (`vad.is_speech` is an
external classifier, so the classification arrives with the frame).
Returns the next state and the emitted segment, if any; emission models
the guarded send of `combined_data` (`len(combined_data) > 0`, line 124). -/
def segStep {α : Type} (s : SegState α) (isSpeech : Bool) (data : α) :
    SegState α × Option (List α) :=
  if s.in_speech = false then
    if isSpeech then
      let sf := s.speech_frames + 1
      let buf := s.audio_buffer ++ [data]
      if SPEECH_START_THRESHOLD ≤ sf then
        (⟨true, sf, 0, buf⟩, none)
      else
        (⟨false, sf, s.silence_frames, buf⟩, none)
    else
      (⟨false, 0, s.silence_frames, []⟩, none)
  else
    if isSpeech then
      (⟨true, s.speech_frames, 0, s.audio_buffer ++ [data]⟩, none)
    else
      let sil := s.silence_frames + 1
      if sil < SILENCE_THRESHOLD_FRAMES then
        (⟨true, s.speech_frames, sil, s.audio_buffer ++ [data]⟩, none)
      else
        (⟨false, 0, 0, []⟩,
          if s.audio_buffer.isEmpty then none else some s.audio_buffer)

/-- Run the segmenter over a list of classified frames, collecting every
emitted segment in order. -/
def segRun {α : Type} (s : SegState α) : List (Bool × α) → SegState α × List (List α)
  | [] => (s, [])
  | (b, d) :: fs =>
    let p := segStep s b d
    let q := segRun p.1 fs
    (q.1, p.2.toList ++ q.2)

/-- Frames classified as speech. -/
def speechFrames {α : Type} (ds : List α) : List (Bool × α) :=
  ds.map (fun d => (true, d))

/-- Frames classified as silence. -/
def silenceFrames {α : Type} (ds : List α) : List (Bool × α) :=
  ds.map (fun d => (false, d))

/-- Decides that no run of consecutive speech-classified frames reaches
the start threshold of 3, given the trailing-run counter so far. -/
def speechRunOk : Nat → List Bool → Bool
  | _, [] => true
  | run, b :: rest =>
    if b then
      if 3 ≤ run + 1 then false else speechRunOk (run + 1) rest
    else
      speechRunOk 0 rest

/-! ### Outbound audio framing (src/agent.py lines 504-505 and 552-562) -/

/-- Default max_chunk_size of split_audio_data and the single-unit
threshold of handle, both 1024 * 1024 bytes (agent.py lines 504, 554). -/
def MAX_CHUNK : Nat := 1024 * 1024

/-- split_audio_data (agent.py lines 504-505) at its default chunk size:
the slices audio_data with i ranging over range(0, len(audio_data), 2^20). -/
def split_audio_data (b : List Nat) : List (List Nat) :=
  if h : b.isEmpty then [] else
    b.take MAX_CHUNK :: split_audio_data (b.drop MAX_CHUNK)
termination_by b.length
decreasing_by
  simp only [List.length_drop]
  have hlen : b.length ≠ 0 := by
    cases b
    · simp at h
    · simp
  have hM : 0 < MAX_CHUNK := by norm_num [MAX_CHUNK]
  omega

/-- One message on the websocket connection, in either direction: a binary
unit or a text unit. -/
inductive WireUnit where
  | bin (b : List Nat)
  | text (s : String)
deriving DecidableEq, Repr

/-- The server-side framing of an outbound audio payload (agent.py lines
553-560): one binary unit when the payload is at most 1 MiB, otherwise the
begin marker, the 1-MiB chunks in order, and the end marker. -/
def frameAudio (raw : List Nat) : List WireUnit :=
  if MAX_CHUNK < raw.length then
    WireUnit.text "AUDIO_CHUNKS_BEGIN" ::
      ((split_audio_data raw).map WireUnit.bin ++ [WireUnit.text "AUDIO_CHUNKS_END"])
  else
    [WireUnit.bin raw]

/-- Modelled from the spec: the receiving side of the chunk framing is not
in src (mic_client.py performs a single recv and no reassembly); spec
section 4.5 says the receiver treats the begin marker as authoritative,
appends every subsequent binary unit to an accumulation buffer until the
end marker, and treats other text units as protocol messages, a binary
unit outside framing being the whole payload. -/
def unframeAcc : Bool → List Nat → List WireUnit → List Nat
  | _, acc, [] => acc
  | false, _, WireUnit.bin b :: _ => b
  | false, acc, WireUnit.text s :: rest =>
    if s = "AUDIO_CHUNKS_BEGIN" then unframeAcc true [] rest
    else unframeAcc false acc rest
  | true, acc, WireUnit.bin b :: rest => unframeAcc true (acc ++ b) rest
  | true, acc, WireUnit.text s :: rest =>
    if s = "AUDIO_CHUNKS_END" then acc else unframeAcc true acc rest

/-- Modelled from the spec: reassembly of a framed unit sequence. -/
def unframe (units : List WireUnit) : List Nat :=
  unframeAcc false [] units

/-! ### Connection handler and admission control (src/agent.py lines 507-570)

The admission gate processing_lock (agent.py line 58) is a single
module-level asyncio.Lock shared by every connection: `handle` checks
`processing_lock.locked()` and, if free, runs the whole pipeline inside
`async with processing_lock`.
-/

/-- Python default whitespace for str.strip. -/
def isPySpace (c : Char) : Bool :=
  c = ' ' || c = '\t' || c = '\n' || c = '\x0d' || c = '\x0b' || c = '\x0c'

/-- Python str.strip on the character list. -/
def pyStrip (cs : List Char) : List Char :=
  ((cs.dropWhile isPySpace).reverse.dropWhile isPySpace).reverse

/-- Python str.upper restricted to ASCII, enough for comparison with END. -/
def pyUpperChar (c : Char) : Char :=
  if 'a' ≤ c && c ≤ 'z' then Char.ofNat (c.toNat - 32) else c

/-- The test `msg.strip().upper() == "END"` of agent.py line 513. -/
def isEndMsg (s : String) : Bool :=
  (pyStrip s.data).map pyUpperChar = "END".data

/-- The placeholder silent WAV sent when no audio was produced
(agent.py line 562). -/
def silentWavBytes : List Nat :=
  [82, 73, 70, 70, 36, 0, 0, 0, 87, 65, 86, 69, 102, 109, 116, 32,
   16, 0, 0, 0, 1, 0, 1, 0, 128, 62, 0, 0, 0, 125, 0, 0, 2, 0, 16, 0,
   100, 97, 116, 97, 0, 0, 0, 0]

/-- An inbound websocket message of `handle`. -/
inductive Msg where
  | bin (b : List Nat)
  | text (s : String)
deriving DecidableEq, Repr

/-- Result of processing one inbound message in `handle`: the units sent
back on this connection, the audio_chunks buffer afterwards, and whether a
pipeline execution was started during the step. -/
structure StepOut where
  replies : List WireUnit
  buffer : List (List Nat)
  ranPipeline : Bool
deriving DecidableEq, Repr

/-- One iteration of the `async for msg in ws` loop of handle (agent.py
lines 510-570). lockHeld is the value of `processing_lock.locked()` when
the message is handled; the pipeline (app.ainvoke followed by audio
extraction and the optional direct TTS call, lines 525-550) is an external
effect modelled as a function from the joined audio bytes to either an
exception message or the optional produced audio. -/
def handleStep (lockHeld : Bool)
    (pipeline : List Nat → Except String (Option (List Nat)))
    (buffer : List (List Nat)) (msg : Msg) : StepOut :=
  match msg with
  | Msg.bin b => ⟨[], buffer ++ [b], false⟩
  | Msg.text s =>
    if isEndMsg s then
      if lockHeld then
        ⟨[WireUnit.text "BUSY"], [], false⟩
      else
        let audio_data := buffer.flatten
        if audio_data.isEmpty then
          ⟨[WireUnit.text "ERROR: No audio data"], buffer, false⟩
        else
          match pipeline audio_data with
          | Except.error e => ⟨[WireUnit.text ("ERROR: " ++ e)], [], true⟩
          | Except.ok none => ⟨[WireUnit.bin silentWavBytes], [], true⟩
          | Except.ok (some raw) => ⟨frameAudio raw, [], true⟩
    else
      ⟨[WireUnit.text "ACK"], buffer, false⟩

/-- Global server state: processing_lock (agent.py line 58) is one
module-level asyncio.Lock shared by all connections, modelled by the
identity of the session currently holding it, plus each session's private
audio_chunks buffer. -/
structure GlobalState where
  lockHolder : Option Nat
  buffers : Nat → List (List Nat)

/-- The value of processing_lock.locked() (agent.py line 514): the global
lock is held whenever ANY session's pipeline is in flight. -/
def lockLocked (g : GlobalState) : Bool := g.lockHolder.isSome

/-- Session i handles a text message while the server is in state g: the
message is processed by handleStep against the GLOBAL lock state, and if a
pipeline execution starts, session i acquires the global lock for its
duration. -/
def sessionTextStep (g : GlobalState) (i : Nat)
    (pipeline : List Nat → Except String (Option (List Nat)))
    (s : String) : StepOut × GlobalState :=
  let out := handleStep (lockLocked g) pipeline (g.buffers i) (Msg.text s)
  (out,
   { lockHolder := if out.ranPipeline then some i else g.lockHolder,
     buffers := fun j => if j = i then out.buffer else g.buffers j })

/-! ### LLM response cache (src/agent.py lines 130-144)

llm_cache is a Python dict, insertion-ordered; cache_response inserts and,
when the size exceeds 100, deletes `next(iter(llm_cache))`, the
earliest-inserted key still present. The dict is modelled as an
association list in insertion order; updating an existing key keeps its
position, a new key is appended.
-/

/-- Python dict assignment `d[k] = v`: replace in place if the key is
present, append otherwise. -/
def dictInsert {K V : Type} [DecidableEq K] (k : K) (v : V) :
    List (K × V) → List (K × V)
  | [] => [(k, v)]
  | (k', v') :: rest =>
    if k' = k then (k', v) :: rest else (k', v') :: dictInsert k v rest

/-- Python `d.get(k)`: the value of the first binding of k, if any. -/
def dictGet {K V : Type} [DecidableEq K] (k : K) : List (K × V) → Option V
  | [] => none
  | (k', v') :: rest => if k' = k then some v' else dictGet k rest

/-- Python `del d[k]`: remove the binding of k (the first, under the
unique-keys dict invariant); no-op when absent. -/
def dictErase {K V : Type} [DecidableEq K] (k : K) :
    List (K × V) → List (K × V)
  | [] => []
  | (k', v') :: rest =>
    if k' = k then rest else (k', v') :: dictErase k rest

/-- Body of cache_response (agent.py lines 141-144) on an arbitrary key
type: insert, then if the size exceeds 100 delete the entry whose key is
`next(iter(llm_cache))`, the first entry. -/
def llm_cache_put {K : Type} [DecidableEq K] (k : K) (v : String)
    (d : List (K × String)) : List (K × String) :=
  let d1 := dictInsert k v d
  if 100 < d1.length then d1.drop 1 else d1

/-- Folding llm_cache_put over a list of keys starting from the empty
cache, caching `f k` for key k. -/
def llm_cache_putAll {K : Type} [DecidableEq K] (ks : List K)
    (f : K → String) : List (K × String) :=
  ks.foldl (fun d k => llm_cache_put k (f k) d) []

/-- get_cache_key (agent.py lines 132-133): the MD5 hex digest of
f-string "{system_prompt}|{prompt}"; the hash itself is an external
function and is passed in. -/
def get_cache_key (md5 : String → String) (prompt system_prompt : String) :
    String :=
  md5 (system_prompt ++ "|" ++ prompt)

/-- get_cached_response (agent.py lines 135-137). -/
def get_cached_response (md5 : String → String) (prompt system_prompt : String)
    (cache : List (String × String)) : Option String :=
  dictGet (get_cache_key md5 prompt system_prompt) cache

/-- cache_response (agent.py lines 139-144). -/
def cache_response (md5 : String → String) (prompt system_prompt response : String)
    (cache : List (String × String)) : List (String × String) :=
  llm_cache_put (get_cache_key md5 prompt system_prompt) response cache

/-! ### MQTT correlation table (src/mqtt_tools.py lines 20, 45-108)

response_queue is a dict mapping request ids to either None (registered,
not yet answered) or the payload; on_message fills a slot only when its
request id is registered; wait_for_response polls the slot roughly every
0.1 s for a 10 s timeout (about 100 checks, modelled by a fuel count) and
removes the entry on both the filled and the timed-out return path. The
listener thread is modelled by `arrive`, giving the payload (if any)
delivered for the request id just before the i-th check.
-/

/-- The correlation table response_queue (mqtt_tools.py line 20). -/
abbrev CorrTable : Type := List (String × Option String)

/-- Registration `response_queue[request_id] = None`
(mqtt_tools.py line 83). -/
def registerSlot (rid : String) (t : CorrTable) : CorrTable :=
  dictInsert rid none t

/-- on_message for a response topic (mqtt_tools.py lines 53-57): the
payload is stored only when the request id is currently registered. -/
def deliver (rid : String) (payload : String) (t : CorrTable) : CorrTable :=
  if (dictGet rid t).isSome then dictInsert rid (some payload) t else t

/-- The polling loop of wait_for_response (mqtt_tools.py lines 62-74):
on each check, any delivery for rid happens first, then the filled test
of lines 66-69; exhausted fuel is the timeout path of lines 71-74. -/
def pollWait (rid : String) (arrive : Nat → Option String) :
    Nat → Nat → CorrTable → Option String × CorrTable
  | _, 0, t => (none, dictErase rid t)
  | i, fuel + 1, t =>
    let t1 := match arrive i with
      | some p => deliver rid p t
      | none => t
    match dictGet rid t1 with
    | some (some resp) => (some resp, dictErase rid t1)
    | _ => pollWait rid arrive (i + 1) fuel t1

/-- wait_for_response (mqtt_tools.py lines 62-74). -/
def wait_for_response (rid : String) (arrive : Nat → Option String)
    (fuel : Nat) (t : CorrTable) : Option String × CorrTable :=
  pollWait rid arrive 0 fuel t

/-- The locally computed fallback time string of tool_get_time
(mqtt_tools.py lines 104-105). -/
def timeFallback (hour minute : Nat) : String :=
  "Текущее время " ++ toString hour ++ " часов, " ++ toString minute ++ " минут"

/-- tool_get_time (mqtt_tools.py lines 78-108) after the publish: register
the slot, wait, then either parse the response (jsonText models json.loads
plus data.get, none being a parse error whose except branch returns the
raw response, some none a parse without a "text" field) or, when the wait
returned None or an empty string (Python truthiness of `if response:`),
fall back to the locally computed time for the current hour and minute. -/
def tool_get_time (rid : String) (arrive : Nat → Option String) (fuel : Nat)
    (jsonText : String → Option (Option String)) (hour minute : Nat)
    (t : CorrTable) : String × CorrTable :=
  let t0 := registerSlot rid t
  let r := wait_for_response rid arrive fuel t0
  match r.1 with
  | some resp =>
    if resp = "" then (timeFallback hour minute, r.2)
    else
      match jsonText resp with
      | none => (resp, r.2)
      | some none => ("Не удалось получить время", r.2)
      | some (some txt) => (txt, r.2)
  | none => (timeFallback hour minute, r.2)

/-! ### Tool fan-out and result assembly (src/agent.py lines 393-452)

tools_node creates one task per tool call, in list order, and awaits
asyncio.gather, which stores every task's result at the task's own index
regardless of completion order; the dict comprehension of line 431 then
builds tool_results in task order, and tool_results_processor assembles
the final text from the dict's values. The completion order is modelled
as a schedule: the order in which the per-task slot writes happen. -/

/-- A tool call (id, name, args) as produced by the LLM or the fallback
extractor (agent.py lines 332-336). -/
structure ToolCall (A : Type) where
  id : String
  name : String
  args : A
deriving DecidableEq, Repr

/-- Completion of the task at index i: its result pair (tool_id, result)
is stored at index i of the gather slots; execute_tool is an external
effect, modelled as a per-call deterministic function. -/
def writeSlot {A : Type} (exec : ToolCall A → String) (calls : List (ToolCall A))
    (slots : List (Option (String × String))) (i : Nat) :
    List (Option (String × String)) :=
  match calls[i]? with
  | some c => slots.set i (some (c.id, exec c))
  | none => slots

/-- asyncio.gather over the tasks (agent.py lines 429-430) under a completion
schedule sched: slot writes happen in completion order, results are read
out in task order. -/
def gatherBySchedule {A : Type} (exec : ToolCall A → String)
    (calls : List (ToolCall A)) (sched : List Nat) :
    List (Option (String × String)) :=
  sched.foldl (writeSlot exec calls) (List.replicate calls.length none)

/-- The dict comprehension `{id_: res for id_, res in results}`
(agent.py line 431). -/
def buildResults (pairs : List (String × String)) : List (String × String) :=
  pairs.foldl (fun d kv => dictInsert kv.1 kv.2 d) []

/-- tool_results_processor (agent.py lines 442-447): a single result is
used verbatim, several results are joined with the newline separator, in
dict order. -/
def assembleToolText (tr : List (String × String)) : Option String :=
  match tr with
  | [] => none
  | [(_, r)] => some r
  | rs => some (String.intercalate "\n" (rs.map Prod.snd))

/-- Fan-out under a completion schedule followed by result assembly. -/
def toolsPipeline {A : Type} (exec : ToolCall A → String)
    (calls : List (ToolCall A)) (sched : List Nat) : Option String :=
  assembleToolText (buildResults (gatherBySchedule exec calls sched).reduceOption)

/-! ### Theorems -/

theorem segRun_append {α : Type} (s : SegState α) (xs ys : List (Bool × α)) :
    segRun s (xs ++ ys) =
      ((segRun (segRun s xs).1 ys).1,
       (segRun s xs).2 ++ (segRun (segRun s xs).1 ys).2) := by
  induction xs generalizing s with
  | nil => simp [segRun]
  | cons f fs ih =>
    obtain ⟨b, d⟩ := f
    simp only [List.cons_append, segRun, List.append_eq, ih (segStep s b d).1,
      List.append_assoc]

theorem segRun_inspeech_speech {α : Type} (rest : List α) (sf : Nat) (buf : List α) :
    segRun ⟨true, sf, 0, buf⟩ (speechFrames rest) = (⟨true, sf, 0, buf ++ rest⟩, []) := by
  induction rest generalizing buf with
  | nil => simp [segRun, speechFrames]
  | cons d ds ih =>
    simp only [speechFrames, List.map_cons, segRun, segStep]
    simp only [speechFrames] at ih
    simp [ih, List.append_assoc]

theorem segRun_idle_silence {α : Type} (zs : List α) (z0 : Nat) :
    segRun (⟨false, 0, z0, []⟩ : SegState α) (silenceFrames zs) =
      (⟨false, 0, z0, []⟩, []) := by
  induction zs with
  | nil => simp [segRun, silenceFrames]
  | cons d ds ih =>
    simp only [silenceFrames, List.map_cons, segRun, segStep]
    simp only [silenceFrames] at ih
    simp [ih]

theorem segRun_speech_start {α : Type} (ds : List α) (z0 : Nat)
    (h : 3 ≤ ds.length) :
    segRun (⟨false, 0, z0, []⟩ : SegState α) (speechFrames ds) =
      (⟨true, 3, 0, ds⟩, []) := by
  match ds, h with
  | d1 :: d2 :: d3 :: rest, _ =>
    have h3 := segRun_inspeech_speech rest 3 [d1, d2, d3]
    simp only [speechFrames, List.map_cons, segRun, segStep, SPEECH_START_THRESHOLD]
    norm_num
    simpa [speechFrames, segRun] using h3

theorem segRun_silence_close {α : Type} (zs : List α) (sf c : Nat) (buf : List α)
    (hb : buf ≠ []) (hc : c < 33) (hlen : 33 ≤ c + zs.length) :
    segRun (⟨true, sf, c, buf⟩ : SegState α) (silenceFrames zs) =
      (⟨false, 0, 0, []⟩, [buf ++ zs.take (32 - c)]) := by
  induction zs generalizing c buf with
  | nil => simp only [List.length_nil] at hlen; omega
  | cons z rest ih =>
    have hth : SILENCE_THRESHOLD_FRAMES = 33 := by norm_num [SILENCE_THRESHOLD_FRAMES]
    by_cases hlt : c + 1 < 33
    · have h1 := ih (c + 1) (buf ++ [z]) (by simp) hlt
        (by simp only [List.length_cons] at hlen; omega)
      simp only [silenceFrames] at h1 ⊢
      have h31 : 32 - (c + 1) = 31 - c := by omega
      rw [h31] at h1
      have htake : List.take (32 - c) (z :: rest) = z :: List.take (31 - c) rest := by
        have h32 : 32 - c = (31 - c) + 1 := by omega
        rw [h32, List.take_succ_cons]
      simp [segRun, segStep, hth, hlt, h1, htake, List.append_assoc]
    · have hceq : c = 32 := by omega
      subst hceq
      have hidle := segRun_idle_silence (α := α) rest 0
      simp only [silenceFrames] at hidle ⊢
      have hemit : buf.isEmpty = false := by cases buf <;> simp_all
      simp [segRun, segStep, hth, hlt, hemit, hidle]

theorem segRun_no_emit_of_ok {α : Type} (frames : List (Bool × α)) :
    ∀ (run z : Nat) (buf : List α),
      speechRunOk run (frames.map Prod.fst) = true →
      (segRun ⟨false, run, z, buf⟩ frames).2 = [] := by
  induction frames with
  | nil => intro run z buf _; simp [segRun]
  | cons f fs ih =>
    intro run z buf h
    obtain ⟨b, d⟩ := f
    cases b with
    | true =>
      simp only [List.map_cons, speechRunOk, if_true] at h
      by_cases h3 : 3 ≤ run + 1
      · rw [if_pos h3] at h
        exact absurd h (by simp)
      · rw [if_neg h3] at h
        have hth : ¬ SPEECH_START_THRESHOLD ≤ run + 1 := by
          simpa [SPEECH_START_THRESHOLD] using h3
        simp [segRun, segStep, hth, ih (run + 1) z (buf ++ [d]) h]
    | false =>
      simp only [List.map_cons, speechRunOk] at h
      simp only [Bool.false_eq_true, if_false] at h
      simp [segRun, segStep, ih 0 z [] h]

theorem speechRunOk_of_silence (bs : List Bool) (h : ∀ b ∈ bs, b = false) :
    ∀ n, speechRunOk n bs = true := by
  induction bs with
  | nil => intro n; rfl
  | cons b rest ih =>
    intro n
    have hb : b = false := h b (by simp)
    subst hb
    simp only [speechRunOk, Bool.false_eq_true, if_false]
    exact ih (fun x hx => h x (by simp [hx])) 0

theorem segStep_emit_ne_nil {α : Type} (s : SegState α) (b : Bool) (d : α)
    (seg : List α) (h : (segStep s b d).2 = some seg) : seg ≠ [] := by
  unfold segStep at h
  split_ifs at h <;> try simp_all
  all_goals (split at h <;> simp_all)

theorem segRun_emit_ne_nil {α : Type} (frames : List (Bool × α)) :
    ∀ (s : SegState α) (seg : List α), seg ∈ (segRun s frames).2 → seg ≠ [] := by
  induction frames with
  | nil => intro s seg hmem; simp [segRun] at hmem
  | cons f fs ih =>
    intro s seg hmem
    obtain ⟨b, d⟩ := f
    simp only [segRun, List.mem_append] at hmem
    rcases hmem with hmem | hmem
    · match hstep : (segStep s b d).2 with
      | none => rw [hstep] at hmem; simp at hmem
      | some e =>
        rw [hstep] at hmem
        simp only [Option.toList_some, List.mem_singleton] at hmem
        subst hmem
        exact segStep_emit_ne_nil s b d seg hstep
    · exact ih (segStep s b d).1 seg hmem

/-- Claim C4: a frame sequence of K (at least 3) consecutive speech frames
followed by at least 33 (the end threshold) consecutive silence frames
makes the segmenter emit exactly one segment, containing all K speech
frames plus the 32 trailing silence frames buffered before closure (the
closing 33rd silence frame triggers emission and is not buffered). -/
theorem claim_C4_segmenter_exactly_one_segment {α : Type} (speech sil : List α)
    (hK : 3 ≤ speech.length) (hM : 33 ≤ sil.length) :
    (segRun (segInit α) (speechFrames speech ++ silenceFrames sil)).2
      = [speech ++ sil.take 32] := by
  have hb : speech ≠ [] := by
    intro hnil
    rw [hnil] at hK
    simp at hK
  have h1 := segRun_speech_start (α := α) speech 0 hK
  have h2 := segRun_silence_close sil 3 0 speech hb (by norm_num) (by omega)
  show (segRun ⟨false, 0, 0, []⟩ (speechFrames speech ++ silenceFrames sil)).2 = _
  rw [segRun_append, h1]
  simp only [Nat.sub_zero] at h2
  simp [h2]

/-- Witness for claim C4 at a concrete 3-speech-frame, 33-silence-frame input. -/
theorem claim_C4_segmenter_exactly_one_segment_witness :
    (segRun (segInit Nat) (speechFrames [10, 11, 12] ++ silenceFrames (List.range 33))).2
      = [[10, 11, 12] ++ (List.range 33).take 32] :=
  claim_C4_segmenter_exactly_one_segment [10, 11, 12] (List.range 33)
    (by decide) (by decide)

/-- Claim C9: if no run of consecutive speech frames reaches the start
threshold of 3 the segmenter emits nothing; a permanently silent stream
emits nothing; and no emitted segment is ever empty. -/
theorem claim_C9_segmenter_no_segment {α : Type} (frames : List (Bool × α)) :
    (speechRunOk 0 (frames.map Prod.fst) = true →
        (segRun (segInit α) frames).2 = [])
    ∧ ((∀ f ∈ frames, f.1 = false) → (segRun (segInit α) frames).2 = [])
    ∧ (∀ seg ∈ (segRun (segInit α) frames).2, seg ≠ []) := by
  refine ⟨fun h => segRun_no_emit_of_ok frames 0 0 [] h,
          fun h => ?_,
          fun seg hmem => segRun_emit_ne_nil frames (segInit α) seg hmem⟩
  refine segRun_no_emit_of_ok frames 0 0 [] (speechRunOk_of_silence _ ?_ 0)
  intro b hb
  simp only [List.mem_map] at hb
  obtain ⟨f, hf, rfl⟩ := hb
  exact h f hf

/-- Witness for claim C9: two speech runs of length 2 emit nothing. -/
theorem claim_C9_segmenter_no_segment_witness :
    (segRun (segInit Nat) [(true, 1), (true, 2), (false, 3), (true, 4), (true, 5)]).2
      = [] :=
  (claim_C9_segmenter_no_segment [(true, 1), (true, 2), (false, 3), (true, 4), (true, 5)]).1
    (by decide)

theorem split_audio_data_flatten (b : List Nat) : (split_audio_data b).flatten = b := by
  generalize hn : b.length = n
  induction n using Nat.strong_induction_on generalizing b with
  | _ n ih =>
    rw [split_audio_data]
    by_cases h : b.isEmpty
    · cases b
      · simp
      · simp at h
    · have hlen : b.length ≠ 0 := by
        cases b
        · simp at h
        · simp
      rw [dif_neg h]
      have hrec := ih ((b.drop MAX_CHUNK).length)
        (by subst hn; simp only [List.length_drop]; norm_num [MAX_CHUNK]; omega)
        (b.drop MAX_CHUNK) rfl
      simp [hrec, List.take_append_drop]

theorem split_audio_data_chunk_le (b : List Nat) :
    (split_audio_data b).all (fun ch => ch.length ≤ MAX_CHUNK) = true := by
  generalize hn : b.length = n
  induction n using Nat.strong_induction_on generalizing b with
  | _ n ih =>
    rw [split_audio_data]
    by_cases h : b.isEmpty
    · simp [h]
    · have hlen : b.length ≠ 0 := by
        cases b
        · simp at h
        · simp
      rw [dif_neg h]
      have hrec := ih ((b.drop MAX_CHUNK).length)
        (by subst hn; simp only [List.length_drop]; norm_num [MAX_CHUNK]; omega)
        (b.drop MAX_CHUNK) rfl
      simp only [List.all_cons, hrec, Bool.and_true]
      simp [List.length_take]

theorem unframeAcc_chunks (chunks : List (List Nat)) (acc : List Nat) :
    unframeAcc true acc (chunks.map WireUnit.bin ++ [WireUnit.text "AUDIO_CHUNKS_END"])
      = acc ++ chunks.flatten := by
  induction chunks generalizing acc with
  | nil => simp [unframeAcc]
  | cons c cs ih => simp [unframeAcc, ih, List.append_assoc]

/-- Claim C3: framing round-trip. A payload of at most 1 MiB is sent as a
single binary unit; a larger payload is sent as the begin marker, its
1-MiB-bounded chunks in order, and the end marker; the chunks concatenate
back to the payload and the receiver reconstructs the payload exactly
(the receiver side is modelled from the spec, see unframeAcc). -/
theorem claim_C3_framing_round_trip (payload : List Nat) :
    unframe (frameAudio payload) = payload
    ∧ (payload.length ≤ MAX_CHUNK → frameAudio payload = [WireUnit.bin payload])
    ∧ (MAX_CHUNK < payload.length →
        frameAudio payload =
          WireUnit.text "AUDIO_CHUNKS_BEGIN" ::
            ((split_audio_data payload).map WireUnit.bin ++
              [WireUnit.text "AUDIO_CHUNKS_END"]))
    ∧ (split_audio_data payload).all (fun ch => ch.length ≤ MAX_CHUNK) = true
    ∧ (split_audio_data payload).flatten = payload := by
  refine ⟨?_, fun hle => ?_, fun hgt => ?_,
    split_audio_data_chunk_le payload, split_audio_data_flatten payload⟩
  · by_cases hgt : MAX_CHUNK < payload.length
    · simp only [frameAudio, if_pos hgt, unframe, unframeAcc, if_pos rfl]
      rw [unframeAcc_chunks]
      simp [split_audio_data_flatten]
    · simp [frameAudio, if_neg hgt, unframe, unframeAcc]
  · simp [frameAudio, Nat.not_lt.mpr hle]
  · simp [frameAudio, hgt]

/-- Witness for claim C3 at a small payload (below the threshold). -/
theorem claim_C3_framing_round_trip_witness :
    unframe (frameAudio [1, 2, 3]) = [1, 2, 3]
    ∧ frameAudio [1, 2, 3] = [WireUnit.bin [1, 2, 3]] :=
  ⟨(claim_C3_framing_round_trip [1, 2, 3]).1,
   (claim_C3_framing_round_trip [1, 2, 3]).2.1 (by norm_num [MAX_CHUNK])⟩

theorem handleStep_ran_lock_free
    (pipeline : List Nat → Except String (Option (List Nat)))
    (lh : Bool) (buf : List (List Nat)) (m : Msg)
    (hr : (handleStep lh pipeline buf m).ranPipeline = true) : lh = false := by
  cases lh with
  | false => rfl
  | true =>
    exfalso
    cases m with
    | bin b => simp [handleStep] at hr
    | text t =>
      by_cases ht : isEndMsg t = true
      · simp [handleStep, ht] at hr
      · simp [handleStep, ht] at hr

/-- Claim C1: while the admission lock is held, an END submission is
answered with BUSY, the accumulated buffer is discarded, nothing is queued
(the step's entire effect is the single BUSY reply and the cleared
buffer), and no pipeline execution starts; moreover a pipeline execution
only ever starts in a step that observed the lock free, and it runs
inside `async with processing_lock`, so it cannot overlap the execution
that holds the lock. -/
theorem claim_C1_busy_on_concurrent_end
    (pipeline : List Nat → Except String (Option (List Nat)))
    (buffer : List (List Nat)) (s : String) (h : isEndMsg s = true) :
    handleStep true pipeline buffer (Msg.text s)
        = ⟨[WireUnit.text "BUSY"], [], false⟩
    ∧ ∀ (lh : Bool) (buf : List (List Nat)) (m : Msg),
        (handleStep lh pipeline buf m).ranPipeline = true → lh = false := by
  constructor
  · simp [handleStep, h]
  · exact fun lh buf m hr => handleStep_ran_lock_free pipeline lh buf m hr

/-- Witness for claim C1 at a concrete lowercase END submission. -/
theorem claim_C1_busy_on_concurrent_end_witness :
    handleStep true (fun _ => Except.ok none) [[1, 2]] (Msg.text " end ")
      = ⟨[WireUnit.text "BUSY"], [], false⟩ :=
  (claim_C1_busy_on_concurrent_end (fun _ => Except.ok none) [[1, 2]] " end "
    (by decide)).1

/-- Counterexample to claim C2: whether session 1's END is admitted
depends on session 0's in-flight pipeline, not only on session 1's own
state. In g1 session 0 holds the global processing_lock; g2 is identical
for session 1 (same buffer, session 1 holds nothing in either state), yet
session 1's END is rejected with BUSY in g1 and admitted (pipeline
started) in g2. -/
theorem claim_C2_counterexample :
    (GlobalState.mk (some 0) (fun _ => [[7]])).buffers 1
        = (GlobalState.mk none (fun _ => [[7]])).buffers 1
    ∧ (GlobalState.mk (some 0) (fun _ => [[7]])).lockHolder = some 0
    ∧ (sessionTextStep (GlobalState.mk (some 0) (fun _ => [[7]])) 1
        (fun _ => Except.ok none) "END").1
        = ⟨[WireUnit.text "BUSY"], [], false⟩
    ∧ (sessionTextStep (GlobalState.mk none (fun _ => [[7]])) 1
        (fun _ => Except.ok none) "END").1
        = ⟨[WireUnit.bin silentWavBytes], [], true⟩ := by
  refine ⟨rfl, rfl, ?_, ?_⟩ <;> decide

/-- Claim C2 as amended: pipeline executions are serialized across ALL
connections by the single global processing_lock; an END submission on any
connection is rejected with BUSY whenever any connection's pipeline is in
flight (so admission depends on the global lock, which is itself
cross-connection shared mutable state), and a new pipeline execution only
starts when no pipeline is in flight anywhere. -/
theorem claim_C2_amended_global_lock_serializes (g : GlobalState) (i : Nat)
    (pipeline : List Nat → Except String (Option (List Nat)))
    (s : String) (hs : isEndMsg s = true) (hl : lockLocked g = true) :
    (sessionTextStep g i pipeline s).1 = ⟨[WireUnit.text "BUSY"], [], false⟩
    ∧ (sessionTextStep g i pipeline s).2.lockHolder = g.lockHolder
    ∧ ∀ (g' : GlobalState) (j : Nat) (s' : String),
        (sessionTextStep g' j pipeline s').1.ranPipeline = true →
        g'.lockHolder = none := by
  refine ⟨?_, ?_, ?_⟩
  · simp [sessionTextStep, handleStep, hs, hl]
  · simp [sessionTextStep, handleStep, hs, hl]
  · intro g' j s' hr
    simp only [sessionTextStep] at hr
    have hfree := handleStep_ran_lock_free pipeline (lockLocked g')
      (g'.buffers j) (Msg.text s') hr
    cases hopt : g'.lockHolder with
    | none => rfl
    | some k => simp [lockLocked, hopt] at hfree

/-- Witness for the amended claim C2 at a concrete state in which session
0 holds the global lock and session 1 submits END. -/
theorem claim_C2_amended_global_lock_serializes_witness :
    (sessionTextStep (GlobalState.mk (some 0) (fun _ => [[7]])) 1
        (fun _ => Except.ok none) "END").1
      = ⟨[WireUnit.text "BUSY"], [], false⟩ :=
  (claim_C2_amended_global_lock_serializes
    (GlobalState.mk (some 0) (fun _ => [[7]])) 1
    (fun _ => Except.ok none) "END" (by decide) rfl).1

/-- Counterexample to claim C8: on an empty buffer the server replies with
the text unit `ERROR: No audio data` (agent.py line 521), not the text
unit `ERROR: No audio data received` stated by the claim. -/
theorem claim_C8_counterexample :
    (handleStep false (fun _ => Except.ok none) [] (Msg.text "END")).replies
        = [WireUnit.text "ERROR: No audio data"]
    ∧ (handleStep false (fun _ => Except.ok none) [] (Msg.text "END")).replies
        ≠ [WireUnit.text "ERROR: No audio data received"]
    ∧ (handleStep false (fun _ => Except.ok none) [] (Msg.text "END")).ranPipeline
        = false := by
  refine ⟨?_, ?_, ?_⟩ <;> decide

/-- Claim C8 as amended: when the joined audio buffer is empty and END
arrives with the lock free, the server replies with the single text unit
`ERROR: No audio data` (not `... received`), starts no pipeline execution,
and leaves the buffer untouched. -/
theorem claim_C8_empty_buffer_error
    (pipeline : List Nat → Except String (Option (List Nat)))
    (buffer : List (List Nat)) (s : String)
    (hs : isEndMsg s = true) (hempty : buffer.flatten = []) :
    handleStep false pipeline buffer (Msg.text s)
      = ⟨[WireUnit.text "ERROR: No audio data"], buffer, false⟩ := by
  simp [handleStep, hs, hempty]

/-- Witness for the amended claim C8 on an empty buffer. -/
theorem claim_C8_empty_buffer_error_witness :
    handleStep false (fun _ => Except.ok none) [] (Msg.text "END")
      = ⟨[WireUnit.text "ERROR: No audio data"], [], false⟩ :=
  claim_C8_empty_buffer_error (fun _ => Except.ok none) [] "END"
    (by decide) (by decide)

theorem dictGet_dictInsert {K V : Type} [DecidableEq K] (k : K) (v : V)
    (d : List (K × V)) : dictGet k (dictInsert k v d) = some v := by
  induction d with
  | nil => simp [dictInsert, dictGet]
  | cons e rest ih =>
    obtain ⟨k', v'⟩ := e
    by_cases hk : k' = k
    · simp [dictInsert, dictGet, hk]
    · simp [dictInsert, dictGet, hk, ih]

theorem dictInsert_of_get_none {K V : Type} [DecidableEq K] (k : K) (v : V)
    (d : List (K × V)) (h : dictGet k d = none) :
    dictInsert k v d = d ++ [(k, v)] := by
  induction d with
  | nil => simp [dictInsert]
  | cons e rest ih =>
    obtain ⟨k', v'⟩ := e
    simp only [dictGet] at h
    by_cases hk : k' = k
    · simp [hk] at h
    · simp only [dictInsert, if_neg hk, List.cons_append]
      rw [ih (by simpa [hk] using h)]

theorem dictInsert_length {K V : Type} [DecidableEq K] (k : K) (v : V)
    (d : List (K × V)) :
    (dictInsert k v d).length = d.length ∨
      (dictInsert k v d).length = d.length + 1 := by
  induction d with
  | nil => simp [dictInsert]
  | cons e rest ih =>
    obtain ⟨k', v'⟩ := e
    by_cases hk : k' = k
    · simp [dictInsert, hk]
    · simp only [dictInsert, if_neg hk, List.length_cons]
      rcases ih with h | h
      · exact Or.inl (by omega)
      · exact Or.inr (by omega)

theorem dictGet_append_left {K V : Type} [DecidableEq K] (k : K)
    (d1 d2 : List (K × V)) (h : dictGet k d1 = none) :
    dictGet k (d1 ++ d2) = dictGet k d2 := by
  induction d1 with
  | nil => simp
  | cons e rest ih =>
    obtain ⟨k', v'⟩ := e
    simp only [dictGet] at h
    by_cases hk : k' = k
    · simp [hk] at h
    · simp only [List.cons_append, dictGet, if_neg hk]
      exact ih (by simpa [hk] using h)

theorem dictGet_cons_none {K V : Type} [DecidableEq K] (k : K) (e : K × V)
    (rest : List (K × V)) (h : dictGet k (e :: rest) = none) :
    e.1 ≠ k ∧ dictGet k rest = none := by
  obtain ⟨k', v'⟩ := e
  simp only [dictGet] at h
  by_cases hk : k' = k
  · simp [hk] at h
  · exact ⟨hk, by simpa [hk] using h⟩

theorem dictGet_none_of_not_mem_keys {K V : Type} [DecidableEq K] (k : K)
    (d : List (K × V)) (h : k ∉ d.map Prod.fst) : dictGet k d = none := by
  induction d with
  | nil => rfl
  | cons e rest ih =>
    obtain ⟨k', v'⟩ := e
    simp only [List.map_cons, List.mem_cons] at h
    push_neg at h
    simp only [dictGet, ih h.2]
    rw [if_neg (fun hh => h.1 hh.symm)]

theorem dictInsert_length_of_get_some {K V : Type} [DecidableEq K] (k : K)
    (v w : V) (d : List (K × V)) (h : dictGet k d = some w) :
    (dictInsert k v d).length = d.length := by
  induction d with
  | nil => simp [dictGet] at h
  | cons e rest ih =>
    obtain ⟨k', v'⟩ := e
    by_cases hk : k' = k
    · simp [dictInsert, hk]
    · simp only [dictGet, if_neg hk] at h
      simp [dictInsert, hk, ih h]

theorem llm_cache_put_get {K : Type} [DecidableEq K] (k : K) (v : String)
    (d : List (K × String)) (hlen : d.length ≤ 100) :
    dictGet k (llm_cache_put k v d) = some v := by
  unfold llm_cache_put
  cases hget : dictGet k d with
  | some w =>
    have hl := dictInsert_length_of_get_some k v w d hget
    rw [if_neg (by omega)]
    exact dictGet_dictInsert k v d
  | none =>
    rw [dictInsert_of_get_none k v d hget]
    by_cases hl : 100 < (d ++ [(k, v)]).length
    · rw [if_pos hl]
      have hd : d ≠ [] := by
        intro hnil
        subst hnil
        simp at hl
      match d, hd, hget with
      | e :: rest, _, hget =>
        have hrest := (dictGet_cons_none k e rest hget).2
        simp only [List.cons_append, List.drop_succ_cons, List.drop_zero]
        rw [dictGet_append_left k rest [(k, v)] hrest]
        simp [dictGet]
    · rw [if_neg hl]
      rw [dictGet_append_left k d [(k, v)] hget]
      simp [dictGet]

theorem llm_cache_put_length {K : Type} [DecidableEq K] (k : K) (v : String)
    (d : List (K × String)) (hlen : d.length ≤ 100) :
    (llm_cache_put k v d).length ≤ 100 := by
  unfold llm_cache_put
  rcases dictInsert_length k v d with h | h
  · rw [if_neg (by omega)]
    omega
  · by_cases hl : 100 < (dictInsert k v d).length
    · rw [if_pos hl]
      simp only [List.length_drop]
      omega
    · rw [if_neg hl]
      omega

theorem llm_cache_put_evict_first {K : Type} [DecidableEq K] (k : K)
    (v : String) (e : K × String) (rest : List (K × String))
    (hfresh : dictGet k (e :: rest) = none)
    (hlen : (e :: rest).length = 100) :
    llm_cache_put k v (e :: rest) = rest ++ [(k, v)]
    ∧ (((e :: rest).map Prod.fst).Nodup →
        dictGet e.1 (llm_cache_put k v (e :: rest)) = none) := by
  have hins := dictInsert_of_get_none k v (e :: rest) hfresh
  have hput : llm_cache_put k v (e :: rest) = rest ++ [(k, v)] := by
    unfold llm_cache_put
    rw [hins]
    rw [if_pos (by simp only [List.length_append, List.length_cons] at hlen ⊢; omega)]
    simp
  refine ⟨hput, fun hnodup => ?_⟩
  rw [hput]
  obtain ⟨hke, _⟩ := dictGet_cons_none k e rest hfresh
  simp only [List.map_cons, List.nodup_cons] at hnodup
  rw [dictGet_append_left e.1 rest [(k, v)]
    (dictGet_none_of_not_mem_keys e.1 rest hnodup.1)]
  simp only [dictGet]
  rw [if_neg (fun hh => hke hh.symm)]

theorem llm_cache_putAll_concat {K : Type} [DecidableEq K] (ks : List K)
    (k : K) (f : K → String) :
    llm_cache_putAll (ks ++ [k]) f = llm_cache_put k (f k) (llm_cache_putAll ks f) := by
  simp [llm_cache_putAll, List.foldl_append]

theorem llm_cache_putAll_eq_drop {K : Type} [DecidableEq K] (ks : List K)
    (f : K → String) (h : ks.Nodup) :
    llm_cache_putAll ks f = (ks.map fun k => (k, f k)).drop (ks.length - 100) := by
  induction ks using List.reverseRecOn with
  | nil => simp [llm_cache_putAll]
  | append_singleton ks k ih =>
    obtain ⟨hnd, _, hdisj⟩ := List.nodup_append.mp h
    have hk : k ∉ ks := fun hmem => hdisj hmem (by simp)
    rw [llm_cache_putAll_concat, ih hnd]
    have hplen : (ks.map fun k => (k, f k)).length = ks.length := by simp
    have hfresh :
        dictGet k ((ks.map fun k => (k, f k)).drop (ks.length - 100)) = none := by
      apply dictGet_none_of_not_mem_keys
      intro hmem
      have hsub := (List.drop_sublist (ks.length - 100)
        (ks.map fun k => (k, f k))).map Prod.fst
      have hmem2 : k ∈ (ks.map fun k => (k, f k)).map Prod.fst :=
        hsub.subset hmem
      simp only [List.map_map] at hmem2
      have : k ∈ ks := by simpa using hmem2
      exact hk this
    unfold llm_cache_put
    rw [dictInsert_of_get_none _ _ _ hfresh]
    have hdroplen : ((ks.map fun k => (k, f k)).drop (ks.length - 100)).length
        = ks.length - (ks.length - 100) := by
      simp [hplen]
    by_cases hlen : ks.length < 100
    · rw [if_neg (by simp only [List.length_append, hdroplen]; simp; omega)]
      have h1 : ks.length - 100 = 0 := by omega
      have h2 : ks.length - 99 = 0 := by omega
      simp [h1, h2]
    · rw [if_pos (by simp only [List.length_append, hdroplen]; simp; omega)]
      rw [List.drop_append_of_le_length (by omega)]
      rw [List.drop_drop]
      simp only [List.map_append, List.map_cons, List.map_nil, List.length_append,
        List.length_cons, List.length_nil]
      rw [List.drop_append_of_le_length (by simp only [List.length_map]; omega)]
      have hidx : ks.length - 100 + 1 = ks.length + 1 - 100 := by omega
      rw [hidx]

/-- Claim C5: cache idempotence and FIFO eviction. After a put on a cache
within capacity, the value is retrievable and the cache stays within 100
entries; a put of a fresh key into a full cache evicts exactly the first
(earliest-inserted) entry, whose key becomes unretrievable (access
recency cannot matter: get performs no mutation); and inserting any
Nodup key sequence from the empty cache retains exactly the last 100
insertions in order. -/
theorem claim_C5_cache_fifo (K : Type) [DecidableEq K] :
    (∀ (d : List (K × String)) (fp : K) (v : String), d.length ≤ 100 →
        dictGet fp (llm_cache_put fp v d) = some v
        ∧ (llm_cache_put fp v d).length ≤ 100)
    ∧ (∀ (e : K × String) (rest : List (K × String)) (fp : K) (v : String),
        dictGet fp (e :: rest) = none → (e :: rest).length = 100 →
        llm_cache_put fp v (e :: rest) = rest ++ [(fp, v)]
        ∧ (((e :: rest).map Prod.fst).Nodup →
            dictGet e.1 (llm_cache_put fp v (e :: rest)) = none))
    ∧ (∀ (ks : List K) (f : K → String), ks.Nodup →
        llm_cache_putAll ks f = (ks.map fun k => (k, f k)).drop (ks.length - 100)) :=
  ⟨fun d fp v hlen => ⟨llm_cache_put_get fp v d hlen, llm_cache_put_length fp v d hlen⟩,
   fun e rest fp v hfresh hlen => llm_cache_put_evict_first fp v e rest hfresh hlen,
   fun ks f h => llm_cache_putAll_eq_drop ks f h⟩

/-- Witness for claim C5: a put into a small cache, an eviction out of a
full 100-entry cache, and a fold of three distinct insertions. -/
theorem claim_C5_cache_fifo_witness :
    dictGet 2 (llm_cache_put 2 "b" [(1, "a")]) = some "b"
    ∧ llm_cache_put 1000 "z" ((0, "w") :: (List.range 99).map (fun n => (n + 1, "v")))
        = (List.range 99).map (fun n => (n + 1, "v")) ++ [(1000, "z")]
    ∧ llm_cache_putAll [1, 2, 3] (fun _ => "x")
        = ([1, 2, 3].map fun k => (k, "x")).drop ([1, 2, 3].length - 100) :=
  ⟨((claim_C5_cache_fifo Nat).1 [(1, "a")] 2 "b" (by decide)).1,
   ((claim_C5_cache_fifo Nat).2.1 (0, "w")
     ((List.range 99).map (fun n => (n + 1, "v"))) 1000 "z"
     (by decide) (by decide)).1,
   (claim_C5_cache_fifo Nat).2.2 [1, 2, 3] (fun _ => "x") (by decide)⟩

/-- Claim C10: the cache fingerprint is the hash of
"{system_prompt}|{prompt}", so the distinct pairs (instruction profile,
user text) equal to ("a|b", "c") and ("a", "b|c") hash the same string
"a|b|c" and collide for every hash function, and a response cached for
one pair is returned for the other. -/
theorem claim_C10_fingerprint_collision (md5 : String → String)
    (cache : List (String × String)) (resp : String)
    (hlen : cache.length ≤ 100) :
    get_cache_key md5 "c" "a|b" = get_cache_key md5 "b|c" "a"
    ∧ get_cached_response md5 "c" "a|b"
        (cache_response md5 "b|c" "a" resp cache) = some resp := by
  have hstr : ("a|b" ++ "|" ++ "c" : String) = ("a" ++ "|" ++ "b|c" : String) := by
    decide
  have hkey : get_cache_key md5 "c" "a|b" = get_cache_key md5 "b|c" "a" :=
    congrArg md5 hstr
  refine ⟨hkey, ?_⟩
  unfold get_cached_response cache_response
  rw [hkey]
  exact llm_cache_put_get _ resp cache hlen

/-- Witness for claim C10 with the identity in place of the hash and an
empty initial cache. -/
theorem claim_C10_fingerprint_collision_witness :
    get_cache_key id "c" "a|b" = get_cache_key id "b|c" "a"
    ∧ get_cached_response id "c" "a|b"
        (cache_response id "b|c" "a" "r" []) = some "r" :=
  claim_C10_fingerprint_collision id [] "r" (by decide)

theorem dictInsert_append_slot {K V : Type} [DecidableEq K] (k : K)
    (v cur : V) (t : List (K × V)) (h : dictGet k t = none) :
    dictInsert k v (t ++ [(k, cur)]) = t ++ [(k, v)] := by
  induction t with
  | nil => simp [dictInsert]
  | cons e rest ih =>
    obtain ⟨k', v'⟩ := e
    obtain ⟨hne, hrest⟩ := dictGet_cons_none k (k', v') rest h
    simp only [List.cons_append, dictInsert, if_neg hne, List.append_eq]
    rw [ih hrest]

theorem dictErase_append_slot {K V : Type} [DecidableEq K] (k : K)
    (cur : V) (t : List (K × V)) (h : dictGet k t = none) :
    dictErase k (t ++ [(k, cur)]) = t := by
  induction t with
  | nil => simp [dictErase]
  | cons e rest ih =>
    obtain ⟨k', v'⟩ := e
    obtain ⟨hne, hrest⟩ := dictGet_cons_none k (k', v') rest h
    simp only [List.cons_append, dictErase, if_neg hne, List.append_eq]
    rw [ih hrest]

theorem dictGet_append_slot {K V : Type} [DecidableEq K] (k : K)
    (cur : V) (t : List (K × V)) (h : dictGet k t = none) :
    dictGet k (t ++ [(k, cur)]) = some cur := by
  rw [dictGet_append_left k t [(k, cur)] h]
  simp [dictGet]

theorem deliver_append_slot (rid p : String) (cur : Option String)
    (t : CorrTable) (h : dictGet rid t = none) :
    deliver rid p (t ++ [(rid, cur)]) = t ++ [(rid, some p)] := by
  unfold deliver
  rw [if_pos (by rw [dictGet_append_slot rid cur t h]; rfl)]
  exact dictInsert_append_slot rid (some p) cur t h

theorem pollWait_table (rid : String) (arrive : Nat → Option String)
    (t : CorrTable) (hfresh : dictGet rid t = none) :
    ∀ (fuel i : Nat) (cur : Option String),
      (pollWait rid arrive i fuel (t ++ [(rid, cur)])).2 = t := by
  intro fuel
  induction fuel with
  | zero =>
    intro i cur
    simp only [pollWait]
    exact dictErase_append_slot rid cur t hfresh
  | succ f ih =>
    intro i cur
    cases harr : arrive i with
    | some p =>
      simp only [pollWait, harr]
      rw [deliver_append_slot rid p cur t hfresh,
        dictGet_append_slot rid (some p) t hfresh]
      exact dictErase_append_slot rid (some p) t hfresh
    | none =>
      simp only [pollWait, harr]
      rw [dictGet_append_slot rid cur t hfresh]
      cases cur with
      | some resp => exact dictErase_append_slot rid (some resp) t hfresh
      | none => exact ih (i + 1) none

theorem pollWait_timeout (rid : String) (arrive : Nat → Option String)
    (t : CorrTable) (hfresh : dictGet rid t = none) :
    ∀ (fuel i : Nat), (∀ j, j < fuel → arrive (i + j) = none) →
      pollWait rid arrive i fuel (t ++ [(rid, none)]) = (none, t) := by
  intro fuel
  induction fuel with
  | zero =>
    intro i _
    simp only [pollWait]
    rw [dictErase_append_slot rid none t hfresh]
  | succ f ih =>
    intro i h
    have h0 : arrive i = none := by simpa using h 0 (by omega)
    simp only [pollWait, h0]
    rw [dictGet_append_slot rid none t hfresh]
    exact ih (i + 1) (fun j hj => by
      have := h (j + 1) (by omega)
      simpa [Nat.add_assoc, Nat.add_comm 1 j] using this)

theorem pollWait_filled (rid : String) (arrive : Nat → Option String)
    (t : CorrTable) (p : String) (hfresh : dictGet rid t = none) :
    ∀ (n fuel i : Nat), (∀ j, j < n → arrive (i + j) = none) →
      arrive (i + n) = some p → n < fuel →
      pollWait rid arrive i fuel (t ++ [(rid, none)]) = (some p, t) := by
  intro n
  induction n with
  | zero =>
    intro fuel i _ harr hfuel
    match fuel, hfuel with
    | f + 1, _ =>
      simp only [Nat.add_zero] at harr
      simp only [pollWait, harr]
      rw [deliver_append_slot rid p none t hfresh,
        dictGet_append_slot rid (some p) t hfresh,
        dictErase_append_slot rid (some p) t hfresh]
  | succ m ih =>
    intro fuel i h harr hfuel
    match fuel, hfuel with
    | f + 1, hfuel =>
      have h0 : arrive i = none := by simpa using h 0 (by omega)
      simp only [pollWait, h0]
      rw [dictGet_append_slot rid none t hfresh]
      refine ih f (i + 1) (fun j hj => ?_) ?_ (by omega)
      · have := h (j + 1) (by omega)
        simpa [Nat.add_assoc, Nat.add_comm 1 j] using this
      · simpa [Nat.add_assoc, Nat.add_comm 1 m] using harr

/-- Claim C6: the correlation wait polls the slot for its request id and,
if the listener fills it within the timeout window, returns the published
response; on timeout it returns None; on every return path the request-id
entry has been removed from the correlation table (the table is restored
exactly to its prior state); and after a timeout tool_get_time returns
the locally computed time string instead of raising or blocking. -/
theorem claim_C6_correlation_wait (rid : String) (arrive : Nat → Option String)
    (t : CorrTable) (fuel n : Nat) (p : String)
    (jsonText : String → Option (Option String)) (hour minute : Nat)
    (hfresh : dictGet rid t = none) :
    (wait_for_response rid arrive fuel (registerSlot rid t)).2 = t
    ∧ dictGet rid (wait_for_response rid arrive fuel (registerSlot rid t)).2 = none
    ∧ ((∀ j, j < fuel → arrive j = none) →
        wait_for_response rid arrive fuel (registerSlot rid t) = (none, t)
        ∧ tool_get_time rid arrive fuel jsonText hour minute t
            = (timeFallback hour minute, t))
    ∧ ((∀ j, j < n → arrive j = none) → arrive n = some p → n < fuel →
        wait_for_response rid arrive fuel (registerSlot rid t) = (some p, t)
        ∧ ∀ txt, p ≠ "" → jsonText p = some (some txt) →
            tool_get_time rid arrive fuel jsonText hour minute t = (txt, t)) := by
  have hreg : registerSlot rid t = t ++ [(rid, none)] :=
    dictInsert_of_get_none rid none t hfresh
  have htab : (wait_for_response rid arrive fuel (registerSlot rid t)).2 = t := by
    rw [wait_for_response, hreg]
    exact pollWait_table rid arrive t hfresh fuel 0 none
  refine ⟨htab, by rw [htab]; exact hfresh, fun h => ?_, fun h harr hlt => ?_⟩
  · have hwait : wait_for_response rid arrive fuel (registerSlot rid t) = (none, t) := by
      rw [wait_for_response, hreg]
      exact pollWait_timeout rid arrive t hfresh fuel 0
        (fun j hj => by simpa using h j hj)
    refine ⟨hwait, ?_⟩
    simp only [tool_get_time, hwait]
  · have hwait : wait_for_response rid arrive fuel (registerSlot rid t) = (some p, t) := by
      rw [wait_for_response, hreg]
      exact pollWait_filled rid arrive t p hfresh n fuel 0
        (fun j hj => by simpa using h j hj) (by simpa using harr) hlt
    refine ⟨hwait, fun txt hp hjson => ?_⟩
    simp only [tool_get_time, hwait, if_neg hp, hjson]

/-- Witness for claim C6: a delivery arrives at the second poll, the wait
returns it and restores the table, and tool_get_time returns the parsed
text field. -/
theorem claim_C6_correlation_wait_witness :
    wait_for_response "time_1" (fun j => if j = 1 then some "hello" else none) 3
        (registerSlot "time_1" []) = (some "hello", [])
    ∧ tool_get_time "time_1" (fun j => if j = 1 then some "hello" else none) 3
        (fun _ => some (some "ok")) 12 30 [] = ("ok", []) := by
  have h4 := (claim_C6_correlation_wait "time_1"
    (fun j => if j = 1 then some "hello" else none) [] 3 1 "hello"
    (fun _ => some (some "ok")) 12 30 (by decide)).2.2.2
    (by decide) (by decide) (by decide)
  exact ⟨h4.1, h4.2 "ok" (by decide) rfl⟩

theorem writeSlot_length {A : Type} (exec : ToolCall A → String)
    (calls : List (ToolCall A)) (slots : List (Option (String × String)))
    (i : Nat) : (writeSlot exec calls slots i).length = slots.length := by
  unfold writeSlot
  cases calls[i]? <;> simp

theorem gather_getElem {A : Type} (exec : ToolCall A → String)
    (calls : List (ToolCall A)) :
    ∀ (sched : List Nat) (slots : List (Option (String × String))) (j : Nat),
      (sched.foldl (writeSlot exec calls) slots)[j]? =
        if j ∈ sched ∧ j < calls.length ∧ j < slots.length
        then (calls[j]?).map (fun c => some (c.id, exec c))
        else slots[j]? := by
  intro sched
  induction sched with
  | nil =>
    intro slots j
    simp
  | cons i rest ih =>
    intro slots j
    simp only [List.foldl_cons]
    rw [ih (writeSlot exec calls slots i) j, writeSlot_length]
    by_cases hA : j ∈ rest ∧ j < calls.length ∧ j < slots.length
    · rw [if_pos hA, if_pos ⟨List.mem_cons_of_mem i hA.1, hA.2⟩]
    · rw [if_neg hA]
      by_cases hB : j ∈ i :: rest ∧ j < calls.length ∧ j < slots.length
      · rw [if_pos hB]
        obtain ⟨hmem, hjc, hjs⟩ := hB
        have hji : j = i := by
          rcases List.mem_cons.mp hmem with h | h
          · exact h
          · exact absurd ⟨h, hjc, hjs⟩ hA
        subst hji
        unfold writeSlot
        cases hcall : calls[j]? with
        | none => exact absurd hcall (by simp [List.getElem?_eq_getElem hjc])
        | some c =>
          rw [List.getElem?_set_eq_of_lt _ hjs]
          simp [hcall]
      · rw [if_neg hB]
        unfold writeSlot
        cases hcall : calls[i]? with
        | none => rfl
        | some c =>
          by_cases hij : i = j
          · subst hij
            have hic : i < calls.length := by
              by_contra hgt
              rw [List.getElem?_eq_none (by omega)] at hcall
              exact absurd hcall (by simp)
            have his : ¬ i < slots.length := fun hlt =>
              hB ⟨by simp, hic, hlt⟩
            rw [List.getElem?_set, if_pos rfl, if_neg his,
              List.getElem?_eq_none (by omega)]
          · exact List.getElem?_set_ne hij

theorem gatherBySchedule_perm {A : Type} (exec : ToolCall A → String)
    (calls : List (ToolCall A)) (sched : List Nat)
    (hperm : sched.Perm (List.range calls.length)) :
    gatherBySchedule exec calls sched
      = calls.map (fun c => some (c.id, exec c)) := by
  apply List.ext_getElem?
  intro j
  unfold gatherBySchedule
  rw [gather_getElem exec calls sched (List.replicate calls.length none) j]
  have hmem : j ∈ sched ↔ j < calls.length := by
    rw [hperm.mem_iff, List.mem_range]
  by_cases hj : j < calls.length
  · rw [if_pos ⟨hmem.mpr hj, hj, by simpa using hj⟩, List.getElem?_map]
  · rw [if_neg (by tauto), List.getElem?_eq_none (by simpa using Nat.le_of_not_lt hj),
      List.getElem?_eq_none (by simpa using Nat.le_of_not_lt hj)]

theorem foldl_dictInsert_eq_append (pairs : List (String × String)) :
    ∀ d : List (String × String), ((d ++ pairs).map Prod.fst).Nodup →
      pairs.foldl (fun d kv => dictInsert kv.1 kv.2 d) d = d ++ pairs := by
  induction pairs with
  | nil =>
    intro d _
    simp
  | cons kv rest ih =>
    intro d hnd
    obtain ⟨k, v⟩ := kv
    simp only [List.foldl_cons]
    rw [List.map_append] at hnd
    have hkd : k ∉ d.map Prod.fst := by
      intro hmem
      obtain ⟨_, _, hdisj⟩ := List.nodup_append.mp hnd
      exact hdisj hmem (by simp)
    rw [dictInsert_of_get_none k v d (dictGet_none_of_not_mem_keys k d hkd)]
    rw [ih (d ++ [(k, v)]) (by simpa [List.append_assoc] using hnd)]
    simp

theorem reduceOption_map_some {γ : Type} (l : List γ) :
    (l.map some).reduceOption = l := by
  induction l with
  | nil => rfl
  | cons a l ih => simp [List.reduceOption, ih]

theorem buildResults_eq_self (pairs : List (String × String))
    (h : (pairs.map Prod.fst).Nodup) : buildResults pairs = pairs := by
  have := foldl_dictInsert_eq_append pairs [] (by simpa using h)
  simpa [buildResults] using this

/-- Claim C7: under any completion schedule that is a permutation of the
task indices, gather stores each call's result at the call's own index,
so the assembled final text is determined by call (list/id) order and is
identical to the in-order outcome; with distinct call ids the result dict
is exactly the call-ordered pair list, a single result being used
verbatim and several results joined with the newline separator by
assembleToolText. -/
theorem claim_C7_tool_dispatch_deterministic {A : Type}
    (exec : ToolCall A → String) (calls : List (ToolCall A)) (sched : List Nat)
    (hperm : sched.Perm (List.range calls.length)) :
    gatherBySchedule exec calls sched = calls.map (fun c => some (c.id, exec c))
    ∧ toolsPipeline exec calls sched
        = toolsPipeline exec calls (List.range calls.length)
    ∧ ((calls.map ToolCall.id).Nodup →
        toolsPipeline exec calls sched
          = assembleToolText (calls.map (fun c => (c.id, exec c)))) := by
  have h1 := gatherBySchedule_perm exec calls sched hperm
  have h1r := gatherBySchedule_perm exec calls (List.range calls.length)
    (List.Perm.refl _)
  refine ⟨h1, ?_, fun hnd => ?_⟩
  · unfold toolsPipeline
    rw [h1, h1r]
  · unfold toolsPipeline
    rw [h1]
    have hmm : calls.map (fun c => some (c.id, exec c))
        = (calls.map (fun c => (c.id, exec c))).map some := by
      simp [List.map_map, Function.comp]
    rw [hmm, reduceOption_map_some]
    rw [buildResults_eq_self _ (by simpa [List.map_map, Function.comp] using hnd)]

/-- Witness for claim C7: three calls with ids a, b, c completing in the
order c, a, b assemble the same text as in-order completion, joined in
call order. -/
theorem claim_C7_tool_dispatch_deterministic_witness :
    toolsPipeline (fun c => c.name)
        [ToolCall.mk "a" "get_time" 0, ToolCall.mk "b" "get_weather" 0,
         ToolCall.mk "c" "set_timer" 0] [2, 0, 1]
      = assembleToolText
          ([ToolCall.mk "a" "get_time" 0, ToolCall.mk "b" "get_weather" 0,
            ToolCall.mk "c" "set_timer" 0].map (fun c => (c.id, c.name))) :=
  (claim_C7_tool_dispatch_deterministic (fun c => c.name)
    [ToolCall.mk "a" "get_time" 0, ToolCall.mk "b" "get_weather" 0,
     ToolCall.mk "c" "set_timer" 0] [2, 0, 1] (by decide)).2.2 (by decide)
